import Mathlib

/-!
Verification of the sliding-window rate limiter middleware
(`src/app/auth.py`, class `RateLimiterMiddleware`, method `dispatch`)
of the EthixAI backend.

Timestamps (Python floats from `time.monotonic()`) are modelled as
rationals.  The mutable deque `self._request_times` is modelled as a
`List ℚ` kept oldest-first, threaded explicitly through each call.
The body of `dispatch` consists of the purge loop, the length check
(raising HTTP 429 on overflow) and the append; its admission decision
is factored out below as `admission`, and `dispatch` itself is
modelled on top of it including the downstream `call_next` call.
-/

/-- Outcome of one admission decision: the request is either let through
to the downstream handler or rejected with HTTP 429. -/
inductive Decision where
  | ADMITTED
  | REJECTED
deriving DecidableEq, Repr

/-- State of the middleware: configuration (`max_requests`,
`window_seconds`, set in `__init__`, auth.py lines 51-55) together with
the deque of timestamps `self._request_times`, oldest first. -/
structure RateLimiterMiddleware where
  max_requests : Nat
  window_seconds : ℚ
  request_times : List ℚ
deriving DecidableEq, Repr

/-- The purge loop of `dispatch` (auth.py lines 60-61):
`while self._request_times and current_time - self._request_times[0] > self.window_seconds:
self._request_times.popleft()`.  It repeatedly drops the front element
while it is strictly older than the window. -/
def purgeLoop (window_seconds now : ℚ) : List ℚ → List ℚ
  | [] => []
  | t :: rest =>
    if now - t > window_seconds then purgeLoop window_seconds now rest
    else t :: rest

/-- The admission decision of `dispatch` (auth.py lines 57-65): purge
expired entries, reject if the remaining log is full, otherwise append
the current timestamp. -/
def admission (rl : RateLimiterMiddleware) (now : ℚ) :
    Decision × RateLimiterMiddleware :=
  let purged := purgeLoop rl.window_seconds now rl.request_times
  if purged.length ≥ rl.max_requests then
    (Decision.REJECTED, { rl with request_times := purged })
  else
    (Decision.ADMITTED, { rl with request_times := purged ++ [now] })

/-- The exception raised by `dispatch` on rejection
(`HTTPException(status_code=429, detail="Rate limit exceeded")`). -/
structure HTTPException where
  status_code : Nat
  detail : String
deriving DecidableEq, Repr

/-- The whole of `RateLimiterMiddleware.dispatch` (auth.py lines 57-66):
the admission logic, raising 429 on rejection, and otherwise invoking the
downstream handler `call_next`.  The downstream handler is modelled as a
function from an abstract downstream-resource state `σ` to a new state
and a response `ρ`; `dispatch` returns the raised exception or the
response, the middleware state, and the downstream state. -/
def dispatch {σ ρ : Type} (rl : RateLimiterMiddleware) (current_time : ℚ)
    (call_next : σ → σ × ρ) (s : σ) :
    Except HTTPException ρ × RateLimiterMiddleware × σ :=
  let purged := purgeLoop rl.window_seconds current_time rl.request_times
  if purged.length ≥ rl.max_requests then
    (Except.error ⟨429, "Rate limit exceeded"⟩, { rl with request_times := purged }, s)
  else
    let out := call_next s
    (Except.ok out.2, { rl with request_times := purged ++ [current_time] }, out.1)

/-- A sequence of admission decisions: the middleware processes the given
timestamps in order, threading its state, and returns the list of
decisions together with the final state. -/
def admissionRun (rl : RateLimiterMiddleware) :
    List ℚ → List Decision × RateLimiterMiddleware
  | [] => ([], rl)
  | t :: ts =>
    let step := admission rl t
    let rest := admissionRun step.2 ts
    (step.1 :: rest.1, rest.2)

/-- Modelled from the spec, §4.1 `admit(now)` wording, for comparison
with `admission` (which is translated from the code): step 1 purges from
the front while `now - oldest_entry > window_seconds` (rendered as
`dropWhile`), step 2 returns REJECTED when the remaining length is
`>= max_requests` without mutating the log further, step 3 appends `now`
and returns ADMITTED. -/
def admissionSpec (rl : RateLimiterMiddleware) (now : ℚ) :
    Decision × RateLimiterMiddleware :=
  let purged :=
    rl.request_times.dropWhile (fun t => decide (now - t > rl.window_seconds))
  if purged.length ≥ rl.max_requests then
    (Decision.REJECTED, { rl with request_times := purged })
  else
    (Decision.ADMITTED, { rl with request_times := purged ++ [now] })

/-- The timestamps of the calls that were ADMITTED, in call order, read
off from a list of timestamps zipped with the decisions they received. -/
def admittedTimes (ts : List ℚ) (ds : List Decision) : List ℚ :=
  ((ts.zip ds).filter (fun p => decide (p.2 = Decision.ADMITTED))).map Prod.fst

theorem admission_def (rl : RateLimiterMiddleware) (now : ℚ) :
    admission rl now =
      if (purgeLoop rl.window_seconds now rl.request_times).length ≥ rl.max_requests then
        (Decision.REJECTED,
          { rl with request_times := purgeLoop rl.window_seconds now rl.request_times })
      else
        (Decision.ADMITTED,
          { rl with request_times :=
              purgeLoop rl.window_seconds now rl.request_times ++ [now] }) := rfl

theorem purgeLoop_eq_dropWhile (w now : ℚ) (l : List ℚ) :
    purgeLoop w now l = l.dropWhile (fun t => decide (now - t > w)) := by
  induction l with
  | nil => rfl
  | cons t rest ih =>
    rw [purgeLoop, List.dropWhile_cons]
    by_cases h : now - t > w
    · simp [h, ih]
    · simp [h]

theorem purgeLoop_eq_drop (w now : ℚ) (l : List ℚ) :
    ∃ k, k ≤ l.length ∧ purgeLoop w now l = l.drop k := by
  induction l with
  | nil => exact ⟨0, Nat.le_refl 0, rfl⟩
  | cons t rest ih =>
    by_cases h : now - t > w
    · obtain ⟨k, hk, hek⟩ := ih
      refine ⟨k + 1, by simpa using Nat.succ_le_succ hk, ?_⟩
      rw [purgeLoop, if_pos h, List.drop_succ_cons, hek]
    · exact ⟨0, Nat.zero_le _, by rw [purgeLoop, if_neg h, List.drop_zero]⟩

theorem purgeLoop_sublist (w now : ℚ) (l : List ℚ) :
    List.Sublist (purgeLoop w now l) l := by
  rw [purgeLoop_eq_dropWhile]
  exact List.dropWhile_sublist _

theorem purgeLoop_head_le (w now : ℚ) (l : List ℚ) (t : ℚ) (tl : List ℚ)
    (h : purgeLoop w now l = t :: tl) : now - t ≤ w := by
  induction l with
  | nil => exact absurd h (by rw [purgeLoop]; exact fun hc => List.noConfusion hc)
  | cons a rest ih =>
    by_cases ha : now - a > w
    · exact ih (by rwa [purgeLoop, if_pos ha] at h)
    · rw [purgeLoop, if_neg ha] at h
      cases h
      exact le_of_not_lt ha

theorem purgeLoop_eq_filter (w now : ℚ) (l : List ℚ)
    (hs : l.Pairwise (· ≤ ·)) :
    purgeLoop w now l = l.filter (fun t => decide (now - t ≤ w)) := by
  induction l with
  | nil => rfl
  | cons t rest ih =>
    rcases List.pairwise_cons.mp hs with ⟨hhead, htail⟩
    by_cases h : now - t > w
    · have hnle : ¬ (now - t ≤ w) := not_le_of_lt h
      rw [purgeLoop, if_pos h, List.filter_cons, if_neg (by simpa using hnle), ih htail]
    · have hle : now - t ≤ w := le_of_not_lt h
      have hrest : rest.filter (fun x => decide (now - x ≤ w)) = rest := by
        refine List.filter_eq_self.mpr fun x hx => ?_
        have htx : t ≤ x := hhead x hx
        have hxw : now - x ≤ w := by linarith
        simpa using hxw
      rw [purgeLoop, if_neg h, List.filter_cons, if_pos (by simpa using hle), hrest]

/-- C9: the admission decision is total: the purge loop never reads the
front of an empty log (it only removes existing front entries) and stops
after at most `length`-many removals, for any log and any timestamp: the
purged log is always `l.drop k` for some `k ≤ l.length`. -/
theorem C9_purge_total (w now : ℚ) (l : List ℚ) :
    ∃ k, k ≤ l.length ∧ purgeLoop w now l = l.drop k :=
  purgeLoop_eq_drop w now l

/-- C10: the admission decision is deterministic: two middleware states
agreeing on `max_requests`, `window_seconds` and the log contents produce
the same decision and the same final log for the same timestamp. -/
theorem C10_deterministic (rl1 rl2 : RateLimiterMiddleware) (now : ℚ)
    (hmax : rl1.max_requests = rl2.max_requests)
    (hw : rl1.window_seconds = rl2.window_seconds)
    (hlog : rl1.request_times = rl2.request_times) :
    admission rl1 now = admission rl2 now := by
  cases rl1
  cases rl2
  cases hmax
  cases hw
  cases hlog
  rfl

/-- Witness for C10 at a concrete state and timestamp. -/
theorem C10_deterministic_witness :
    admission ⟨2, 1, [0]⟩ (1 : ℚ) = admission ⟨2, 1, [0]⟩ (1 : ℚ) :=
  C10_deterministic ⟨2, 1, [0]⟩ ⟨2, 1, [0]⟩ 1 rfl rfl rfl

/-- C2: the code's admission logic performs exactly the three spec steps:
purge from the front while `now - oldest > window_seconds`, reject
without further mutation when the remaining length is `>= max_requests`,
otherwise append `now` and return ADMITTED. -/
theorem C2_three_steps (rl : RateLimiterMiddleware) (now : ℚ) :
    admission rl now = admissionSpec rl now := by
  rw [admission_def, admissionSpec, purgeLoop_eq_dropWhile]

/-- C7: with `max_requests = 2` and `window_seconds = 1`, the calls at
`0, 0.1, 0.2, 1.05, 1.05` are ADMITTED, ADMITTED, REJECTED, ADMITTED,
REJECTED, and the final log is `[0.1, 1.05]`. -/
theorem C7_recovery_scenario :
    admissionRun ⟨2, 1, []⟩ [0, 1/10, 2/10, 21/20, 21/20] =
      ([Decision.ADMITTED, Decision.ADMITTED, Decision.REJECTED,
        Decision.ADMITTED, Decision.REJECTED], ⟨2, 1, [1/10, 21/20]⟩) := by
  norm_num [admissionRun, admission, purgeLoop]

theorem dispatch_def {σ ρ : Type} (rl : RateLimiterMiddleware) (current_time : ℚ)
    (call_next : σ → σ × ρ) (s : σ) :
    dispatch rl current_time call_next s =
      if (purgeLoop rl.window_seconds current_time rl.request_times).length ≥
          rl.max_requests then
        (Except.error ⟨429, "Rate limit exceeded"⟩,
          { rl with request_times :=
              purgeLoop rl.window_seconds current_time rl.request_times }, s)
      else
        (Except.ok (call_next s).2,
          { rl with request_times :=
              purgeLoop rl.window_seconds current_time rl.request_times ++ [current_time] },
          (call_next s).1) := rfl

/-- C3: the purge comparison is strict.  For sorted logs (as produced by
monotone timestamps) every entry left after the call is at most
`window_seconds` old, and every entry at most `window_seconds` old —
including one exactly at the boundary — survives the purge and is
therefore counted by the length check. -/
theorem C3_strict_boundary (rl : RateLimiterMiddleware) (now : ℚ)
    (hw : 0 ≤ rl.window_seconds)
    (hs : rl.request_times.Pairwise (· ≤ ·)) :
    (∀ e ∈ (admission rl now).2.request_times, now - e ≤ rl.window_seconds) ∧
    (∀ e ∈ rl.request_times, now - e ≤ rl.window_seconds →
      e ∈ purgeLoop rl.window_seconds now rl.request_times) := by
  constructor
  · intro e he
    rw [admission_def] at he
    by_cases hfull :
        (purgeLoop rl.window_seconds now rl.request_times).length ≥ rl.max_requests
    · rw [if_pos hfull] at he
      rw [purgeLoop_eq_filter _ _ _ hs] at he
      have := List.of_mem_filter (p := fun t => decide (now - t ≤ rl.window_seconds)) he
      simpa using this
    · rw [if_neg hfull] at he
      rcases List.mem_append.mp he with h1 | h1
      · rw [purgeLoop_eq_filter _ _ _ hs] at h1
        have := List.of_mem_filter (p := fun t => decide (now - t ≤ rl.window_seconds)) h1
        simpa using this
      · have he2 : e = now := by simpa using h1
        subst he2
        simpa using hw
  · intro e he hein
    rw [purgeLoop_eq_filter _ _ _ hs]
    exact List.mem_filter.mpr ⟨he, by simpa using hein⟩

/-- Witness for C3 at a concrete state and timestamp. -/
theorem C3_strict_boundary_witness :
    ((0:ℚ) ≤ (1:ℚ)) ∧ List.Pairwise (· ≤ ·) [(0:ℚ)] ∧
    ((∀ e ∈ (admission ⟨2, 1, [0]⟩ (1:ℚ)).2.request_times, (1:ℚ) - e ≤ 1) ∧
     (∀ e ∈ [(0:ℚ)], (1:ℚ) - e ≤ 1 → e ∈ purgeLoop 1 1 [0])) :=
  ⟨by norm_num, by simp,
    C3_strict_boundary ⟨2, 1, [0]⟩ 1 (by norm_num) (by simp)⟩

theorem admission_reject_state (rl : RateLimiterMiddleware) (now : ℚ)
    (h : (admission rl now).1 = Decision.REJECTED) :
    (admission rl now).2 =
      { rl with request_times := purgeLoop rl.window_seconds now rl.request_times } ∧
    (purgeLoop rl.window_seconds now rl.request_times).length ≥ rl.max_requests := by
  rw [admission_def] at h ⊢
  by_cases hfull :
      (purgeLoop rl.window_seconds now rl.request_times).length ≥ rl.max_requests
  · rw [if_pos hfull]
    exact ⟨rfl, hfull⟩
  · rw [if_neg hfull] at h
    exact absurd h (fun hc => Decision.noConfusion hc)

theorem reject_stable (rl : RateLimiterMiddleware) (now u : ℚ)
    (h : (admission rl now).1 = Decision.REJECTED) (hu : u ≤ now) :
    admission (admission rl now).2 u = (Decision.REJECTED, (admission rl now).2) := by
  obtain ⟨hstate, hfull⟩ := admission_reject_state rl now h
  have hpurge : purgeLoop rl.window_seconds u
      (purgeLoop rl.window_seconds now rl.request_times) =
      purgeLoop rl.window_seconds now rl.request_times := by
    cases hP : purgeLoop rl.window_seconds now rl.request_times with
    | nil => rfl
    | cons e tl =>
      have hretained : now - e ≤ rl.window_seconds :=
        purgeLoop_head_le rl.window_seconds now rl.request_times e tl hP
      have hu2 : ¬ (u - e > rl.window_seconds) := by
        refine not_lt_of_le ?_
        linarith
      rw [purgeLoop, if_neg hu2]
  rw [hstate, admission_def]
  dsimp only
  rw [hpurge, if_pos hfull]

theorem reject_run (rl : RateLimiterMiddleware) (now : ℚ)
    (h : (admission rl now).1 = Decision.REJECTED) (us : List ℚ)
    (hus : ∀ u ∈ us, u ≤ now) :
    admissionRun (admission rl now).2 us =
      (List.replicate us.length Decision.REJECTED, (admission rl now).2) := by
  induction us with
  | nil => rfl
  | cons u vs ih =>
    have hstep := reject_stable rl now u h (hus u (List.mem_cons_self u vs))
    have hrest := ih (fun x hx => hus x (List.mem_cons_of_mem u hx))
    simp only [admissionRun, hstep, hrest, List.length_cons, List.replicate_succ]

theorem chain_ge_all_le (now : ℚ) (us : List ℚ)
    (h : (now :: us).Chain' (fun a b => b ≤ a)) : ∀ u ∈ us, u ≤ now := by
  induction us generalizing now with
  | nil => simp
  | cons v vs ih =>
    rcases List.chain'_cons.mp h with ⟨hv, hrest⟩
    intro u hu
    rcases List.mem_cons.mp hu with rfl | hu'
    · exact hv
    · exact le_trans (ih v hrest u hu') hv

/-- C5: a rejected call mutates the log only by the purge step, and once
a call at `now` is rejected, any further calls with the same or
non-increasing timestamps are all rejected and leave the log unchanged. -/
theorem C5_idempotent_rejection (rl : RateLimiterMiddleware) (now : ℚ) (us : List ℚ)
    (h : (admission rl now).1 = Decision.REJECTED)
    (hus : (now :: us).Chain' (fun a b => b ≤ a)) :
    (admission rl now).2.request_times =
      purgeLoop rl.window_seconds now rl.request_times ∧
    (admissionRun (admission rl now).2 us).1 =
      List.replicate us.length Decision.REJECTED ∧
    (admissionRun (admission rl now).2 us).2 = (admission rl now).2 := by
  obtain ⟨hstate, -⟩ := admission_reject_state rl now h
  have hrun := reject_run rl now h us (chain_ge_all_le now us hus)
  exact ⟨by rw [hstate], by rw [hrun], by rw [hrun]⟩

/-- Witness for C5 at a concrete state and timestamps. -/
theorem C5_idempotent_rejection_witness :
    (admission ⟨0, 1, []⟩ (0:ℚ)).1 = Decision.REJECTED ∧
    ([(0:ℚ), 0]).Chain' (fun a b => b ≤ a) ∧
    ((admission ⟨0, 1, []⟩ (0:ℚ)).2.request_times = purgeLoop 1 0 [] ∧
     (admissionRun (admission ⟨0, 1, []⟩ (0:ℚ)).2 [0]).1 =
       List.replicate 1 Decision.REJECTED ∧
     (admissionRun (admission ⟨0, 1, []⟩ (0:ℚ)).2 [0]).2 =
       (admission ⟨0, 1, []⟩ (0:ℚ)).2) :=
  ⟨rfl, by simp,
    C5_idempotent_rejection ⟨0, 1, []⟩ 0 [0] rfl (by simp)⟩

/-- C6: when the admission decision is REJECTED, `dispatch` raises
HTTP 429, does not invoke the downstream handler and leaves the
downstream state untouched; when it is ADMITTED, `dispatch` runs the
downstream handler normally and returns its response. -/
theorem C6_dispatch_contract {σ ρ : Type} (rl : RateLimiterMiddleware) (now : ℚ)
    (call_next : σ → σ × ρ) (s : σ) :
    ((admission rl now).1 = Decision.REJECTED →
      dispatch rl now call_next s =
        (Except.error ⟨429, "Rate limit exceeded"⟩, (admission rl now).2, s)) ∧
    ((admission rl now).1 = Decision.ADMITTED →
      dispatch rl now call_next s =
        (Except.ok (call_next s).2, (admission rl now).2, (call_next s).1)) := by
  rw [dispatch_def, admission_def]
  by_cases hfull :
      (purgeLoop rl.window_seconds now rl.request_times).length ≥ rl.max_requests
  · rw [if_pos hfull, if_pos hfull]
    exact ⟨fun _ => rfl, fun hc => Decision.noConfusion hc⟩
  · rw [if_neg hfull, if_neg hfull]
    exact ⟨fun hc => Decision.noConfusion hc, fun _ => rfl⟩

/-- Witness for C6 at a concrete rejecting state. -/
theorem C6_dispatch_contract_witness :
    (admission ⟨0, 1, []⟩ (0:ℚ)).1 = Decision.REJECTED ∧
    dispatch ⟨0, 1, []⟩ (0:ℚ) (fun n : Nat => (n + 1, true)) 5 =
      (Except.error ⟨429, "Rate limit exceeded"⟩, ⟨0, 1, []⟩, 5) :=
  ⟨rfl, (C6_dispatch_contract ⟨0, 1, []⟩ 0 (fun n : Nat => (n + 1, true)) 5).1 rfl⟩

theorem pairwise_le_getLast (l : List ℚ) (hs : l.Pairwise (· ≤ ·))
    (hne : l ≠ []) : ∀ e ∈ l, e ≤ l.getLast hne := by
  induction l with
  | nil => exact absurd rfl hne
  | cons a rest ih =>
    rcases List.pairwise_cons.mp hs with ⟨hhead, htail⟩
    intro e he
    cases rest with
    | nil =>
      have : e = a := by simpa using he
      subst this
      rfl
    | cons b bs =>
      rw [List.getLast_cons (by simp : (b :: bs) ≠ [])]
      rcases List.mem_cons.mp he with rfl | he'
      · exact le_trans (hhead b (List.mem_cons_self b bs))
          (ih htail (by simp) b (List.mem_cons_self b bs))
      · exact ih htail (by simp) e he'

/-- C8: if `now` is strictly more than `window_seconds` after the newest
(last) entry of a sorted log, the call purges every entry and, provided
`max_requests ≥ 1`, is ADMITTED, leaving the log equal to `[now]`. -/
theorem C8_total_purge (rl : RateLimiterMiddleware) (now : ℚ)
    (hmax : 1 ≤ rl.max_requests)
    (hs : rl.request_times.Pairwise (· ≤ ·))
    (hne : rl.request_times ≠ [])
    (hlast : now - rl.request_times.getLast hne > rl.window_seconds) :
    admission rl now = (Decision.ADMITTED, { rl with request_times := [now] }) := by
  have hempty : purgeLoop rl.window_seconds now rl.request_times = [] := by
    rw [purgeLoop_eq_filter _ _ _ hs]
    refine List.filter_eq_nil_iff.mpr fun e he => ?_
    have hle : e ≤ rl.request_times.getLast hne := pairwise_le_getLast _ hs hne e he
    have : ¬ (now - e ≤ rl.window_seconds) := by
      refine not_le_of_lt ?_
      linarith
    simpa using this
  rw [admission_def, hempty]
  rw [if_neg (by simpa using Nat.not_le_of_lt (Nat.lt_of_lt_of_le Nat.zero_lt_one hmax))]
  rfl

/-- Witness for C8 at a concrete state and timestamp. -/
theorem C8_total_purge_witness :
    1 ≤ 1 ∧ List.Pairwise (· ≤ ·) [(0:ℚ)] ∧ ([(0:ℚ)] ≠ []) ∧
    ((2:ℚ) - ([(0:ℚ)].getLast (by simp)) > 1) ∧
    admission ⟨1, 1, [0]⟩ (2:ℚ) = (Decision.ADMITTED, ⟨1, 1, [2]⟩) :=
  ⟨Nat.le_refl 1, by simp, by simp, by norm_num,
    C8_total_purge ⟨1, 1, [0]⟩ 2 (Nat.le_refl 1) (by simp) (by simp) (by norm_num)⟩

theorem admission_max_window (rl : RateLimiterMiddleware) (now : ℚ) :
    (admission rl now).2.max_requests = rl.max_requests ∧
    (admission rl now).2.window_seconds = rl.window_seconds := by
  rw [admission_def]
  by_cases h :
      (purgeLoop rl.window_seconds now rl.request_times).length ≥ rl.max_requests
  · rw [if_pos h]; exact ⟨rfl, rfl⟩
  · rw [if_neg h]; exact ⟨rfl, rfl⟩

theorem admissionRun_max_window (rl : RateLimiterMiddleware) (ts : List ℚ) :
    (admissionRun rl ts).2.max_requests = rl.max_requests ∧
    (admissionRun rl ts).2.window_seconds = rl.window_seconds := by
  induction ts generalizing rl with
  | nil => exact ⟨rfl, rfl⟩
  | cons t ts ih =>
    have h1 := admission_max_window rl t
    have h2 := ih (admission rl t).2
    simp only [admissionRun]
    exact ⟨h2.1.trans h1.1, h2.2.trans h1.2⟩

theorem admission_length_le (rl : RateLimiterMiddleware) (now : ℚ)
    (h : rl.request_times.length ≤ rl.max_requests) :
    (admission rl now).2.request_times.length ≤ rl.max_requests := by
  rw [admission_def]
  by_cases hfull :
      (purgeLoop rl.window_seconds now rl.request_times).length ≥ rl.max_requests
  · rw [if_pos hfull]
    exact le_trans (List.Sublist.length_le (purgeLoop_sublist _ _ _)) h
  · rw [if_neg hfull]
    have hlt : (purgeLoop rl.window_seconds now rl.request_times).length <
        rl.max_requests := Nat.lt_of_not_le hfull
    simpa using Nat.succ_le_of_lt hlt

theorem admissionRun_length_le (rl : RateLimiterMiddleware) (ts : List ℚ)
    (h : rl.request_times.length ≤ rl.max_requests) :
    (admissionRun rl ts).2.request_times.length ≤ rl.max_requests := by
  induction ts generalizing rl with
  | nil => exact h
  | cons t ts ih =>
    have hstep := admission_length_le rl t h
    have hmax := (admission_max_window rl t).1
    simp only [admissionRun]
    have hrec := ih (admission rl t).2 (by rw [hmax]; exact hstep)
    rwa [hmax] at hrec

theorem admissionRun_decisions_length (rl : RateLimiterMiddleware) (ts : List ℚ) :
    (admissionRun rl ts).1.length = ts.length := by
  induction ts generalizing rl with
  | nil => rfl
  | cons t ts ih => simp only [admissionRun, List.length_cons, ih]

theorem admissionRun_append (rl : RateLimiterMiddleware) (l1 l2 : List ℚ) :
    admissionRun rl (l1 ++ l2) =
      ((admissionRun rl l1).1 ++ (admissionRun (admissionRun rl l1).2 l2).1,
        (admissionRun (admissionRun rl l1).2 l2).2) := by
  induction l1 generalizing rl with
  | nil => rfl
  | cons t ts ih => simp only [List.cons_append, admissionRun, List.append_eq, ih]

theorem admittedTimes_append (ts1 ts2 : List ℚ) (ds1 ds2 : List Decision)
    (h : ts1.length = ds1.length) :
    admittedTimes (ts1 ++ ts2) (ds1 ++ ds2) =
      admittedTimes ts1 ds1 ++ admittedTimes ts2 ds2 := by
  unfold admittedTimes
  rw [List.zip_append h, List.filter_append, List.map_append]

theorem map_fst_zip_sublist {α β : Type} (l1 : List α) (l2 : List β) :
    List.Sublist (List.map Prod.fst (l1.zip l2)) l1 := by
  induction l1 generalizing l2 with
  | nil => simp
  | cons a l1 ih =>
    cases l2 with
    | nil => simp
    | cons b l2 =>
      rw [List.zip_cons_cons, List.map_cons]
      exact List.Sublist.cons₂ a (ih l2)

theorem admittedTimes_sublist (ts : List ℚ) (ds : List Decision) :
    List.Sublist (admittedTimes ts ds) ts := by
  unfold admittedTimes
  exact (List.Sublist.map Prod.fst (List.filter_sublist _)).trans
    (map_fst_zip_sublist ts ds)

/-- For a sorted call sequence started from the empty log, the log after
the run consists of exactly the admitted timestamps that are within the
window of the run's final timestamp. -/
theorem run_log_characterization (max : ℕ) (w : ℚ) (hw : 0 ≤ w) (ts : List ℚ) :
    ts.Pairwise (· ≤ ·) →
    ∀ (init : List ℚ) (tk : ℚ), ts = init ++ [tk] →
      (admissionRun ⟨max, w, []⟩ ts).2.request_times =
        (admittedTimes ts (admissionRun ⟨max, w, []⟩ ts).1).filter
          (fun x => decide (tk - x ≤ w)) := by
  induction ts using List.reverseRecOn with
  | nil =>
    intro _ init tk h
    exact absurd h (by simp)
  | append_singleton init' t ih =>
    intro hp init tk hdecomp
    obtain ⟨rfl, htk⟩ := List.append_inj' hdecomp rfl
    have htk2 : t = tk := by simpa using htk
    subst htk2
    have hall : ∀ a ∈ init', a ≤ t :=
      fun a ha => (List.pairwise_append.mp hp).2.2 a ha t (by simp)
    have hpinit : init'.Pairwise (· ≤ ·) :=
      List.Pairwise.sublist (List.sublist_append_left init' [t]) hp
    have hAsub : List.Sublist
        (admittedTimes init' (admissionRun ⟨max, w, []⟩ init').1) init' :=
      admittedTimes_sublist _ _
    have hApair :
        (admittedTimes init' (admissionRun ⟨max, w, []⟩ init').1).Pairwise (· ≤ ·) :=
      List.Pairwise.sublist hAsub hpinit
    have hw' : (admissionRun ⟨max, w, []⟩ init').2.window_seconds = w :=
      (admissionRun_max_window _ _).2
    have hm' : (admissionRun ⟨max, w, []⟩ init').2.max_requests = max :=
      (admissionRun_max_window _ _).1
    -- the purge of the state reached after `init'` keeps exactly the
    -- admitted timestamps within the window of `t`
    have hpurged : purgeLoop w t (admissionRun ⟨max, w, []⟩ init').2.request_times =
        (admittedTimes init' (admissionRun ⟨max, w, []⟩ init').1).filter
          (fun x => decide (t - x ≤ w)) := by
      by_cases hne : init' = []
      · subst hne
        rfl
      · have hlog := ih hpinit init'.dropLast (init'.getLast hne)
          (List.dropLast_append_getLast hne).symm
        rw [hlog, purgeLoop_eq_filter _ _ _
          (List.Pairwise.sublist (List.filter_sublist _) hApair), List.filter_filter]
        refine List.filter_congr fun x hx => ?_
        have hxle : x ≤ t := hall x (List.Sublist.mem hx hAsub)
        have hlastle : init'.getLast hne ≤ t := hall _ (List.getLast_mem hne)
        by_cases hxw : t - x ≤ w
        · have h2 : init'.getLast hne - x ≤ w := by linarith
          simp [hxw, h2]
        · simp [hxw]
    rw [admissionRun_append]
    have hsingle : admissionRun (admissionRun ⟨max, w, []⟩ init').2 [t] =
        ([(admission (admissionRun ⟨max, w, []⟩ init').2 t).1],
          (admission (admissionRun ⟨max, w, []⟩ init').2 t).2) := rfl
    rw [hsingle]
    rw [admission_def, hw', hm', hpurged]
    have hdslen : init'.length = (admissionRun ⟨max, w, []⟩ init').1.length :=
      (admissionRun_decisions_length _ _).symm
    by_cases hfull :
        ((admittedTimes init' (admissionRun ⟨max, w, []⟩ init').1).filter
          (fun x => decide (t - x ≤ w))).length ≥ max
    · rw [if_pos hfull]
      rw [admittedTimes_append init' [t] _ [Decision.REJECTED] hdslen]
      rw [show admittedTimes [t] [Decision.REJECTED] = [] from rfl, List.append_nil]
    · rw [if_neg hfull]
      rw [admittedTimes_append init' [t] _ [Decision.ADMITTED] hdslen]
      rw [show admittedTimes [t] [Decision.ADMITTED] = [t] from rfl]
      rw [List.filter_append]
      rw [show ([t].filter (fun x => decide (t - x ≤ w))) = [t] by simp [hw]]

/-- C1: for every non-decreasing call sequence started from the empty
log, after every prefix (the current call being `tk`) the log holds at
most `max_requests` entries, and the number of ADMITTED calls whose
timestamps lie in `(tk - window_seconds, tk]` never exceeds
`max_requests`. -/
theorem C1_sliding_window_bound (max : ℕ) (w : ℚ) (hw : 0 ≤ w)
    (ts init : List ℚ) (tk : ℚ) (rest : List ℚ)
    (hts : ts = init ++ tk :: rest) (hchain : ts.Chain' (· ≤ ·)) :
    (admissionRun ⟨max, w, []⟩ (init ++ [tk])).2.request_times.length ≤ max ∧
    ((init ++ [tk]).zip (admissionRun ⟨max, w, []⟩ (init ++ [tk])).1).countP
        (fun p => decide (tk - w < p.1 ∧ p.1 ≤ tk) && decide (p.2 = Decision.ADMITTED))
      ≤ max := by
  have hpair_ts : ts.Pairwise (· ≤ ·) := List.chain'_iff_pairwise.mp hchain
  have hsub : List.Sublist (init ++ [tk]) ts := by
    rw [hts]
    exact List.Sublist.append (List.Sublist.refl init) (by simp)
  have hpair : (init ++ [tk]).Pairwise (· ≤ ·) := List.Pairwise.sublist hsub hpair_ts
  have hlen : (admissionRun ⟨max, w, []⟩ (init ++ [tk])).2.request_times.length ≤ max := by
    have h0 := admissionRun_length_le ⟨max, w, []⟩ (init ++ [tk]) (Nat.zero_le max)
    exact h0
  refine ⟨hlen, ?_⟩
  have hchar := run_log_characterization max w hw (init ++ [tk]) hpair init tk rfl
  have h1 : ((init ++ [tk]).zip (admissionRun ⟨max, w, []⟩ (init ++ [tk])).1).countP
      (fun p => decide (tk - w < p.1 ∧ p.1 ≤ tk) && decide (p.2 = Decision.ADMITTED)) =
      (admittedTimes (init ++ [tk]) (admissionRun ⟨max, w, []⟩ (init ++ [tk])).1).countP
        (fun x => decide (tk - w < x ∧ x ≤ tk)) := by
    unfold admittedTimes
    rw [List.countP_map, List.countP_filter]
    rfl
  have h2 : (admittedTimes (init ++ [tk]) (admissionRun ⟨max, w, []⟩ (init ++ [tk])).1).countP
        (fun x => decide (tk - w < x ∧ x ≤ tk)) ≤
      (admittedTimes (init ++ [tk]) (admissionRun ⟨max, w, []⟩ (init ++ [tk])).1).countP
        (fun x => decide (tk - x ≤ w)) := by
    refine List.countP_mono_left fun x hx hpx => ?_
    have hx2 : tk - w < x ∧ x ≤ tk := of_decide_eq_true hpx
    exact decide_eq_true (by linarith [hx2.1, hx2.2])
  have h3 : (admittedTimes (init ++ [tk]) (admissionRun ⟨max, w, []⟩ (init ++ [tk])).1).countP
        (fun x => decide (tk - x ≤ w)) =
      (admissionRun ⟨max, w, []⟩ (init ++ [tk])).2.request_times.length := by
    rw [List.countP_eq_length_filter, hchar]
  rw [h1]
  refine le_trans h2 ?_
  rw [h3]
  exact hlen

/-- Witness for C1 at a concrete configuration and call sequence. -/
theorem C1_sliding_window_bound_witness :
    ((0:ℚ) ≤ 1) ∧ ([(0:ℚ), 0] = ([] : List ℚ) ++ (0:ℚ) :: [0]) ∧
    ([(0:ℚ), 0]).Chain' (· ≤ ·) ∧
    ((admissionRun ⟨1, 1, []⟩ (([] : List ℚ) ++ [(0:ℚ)])).2.request_times.length ≤ 1 ∧
     ((([] : List ℚ) ++ [(0:ℚ)]).zip
        (admissionRun ⟨1, 1, []⟩ (([] : List ℚ) ++ [(0:ℚ)])).1).countP
        (fun p => decide ((0:ℚ) - 1 < p.1 ∧ p.1 ≤ 0) && decide (p.2 = Decision.ADMITTED))
      ≤ 1) :=
  ⟨by norm_num, rfl, by simp,
    C1_sliding_window_bound 1 1 (by norm_num) [0, 0] [] 0 [0] rfl (by simp)⟩
